import Mathlib

/-!
Verification development for a small file-backed document store
(`main.go` of `fabian-lim/golang-database`).

The embedding models:
* serializable values (`Json`) together with the serializer used by
  `Driver.Write` (`encoding/json.MarshalIndent(v, "", "\t")` plus the
  appended newline) and the deserializer used by `Driver.Read`
  (`encoding/json.Unmarshal`);
* the filesystem as a tree of named entries, with the `os`/`ioutil`
  primitives the driver calls (`MkdirAll`, `WriteFile`, `Rename`,
  `RemoveAll`, `Stat`, `ReadFile`, `ReadDir`);
* the `Driver` itself: `Write`, `Read`, `ReadAll`, `Delete`,
  `GetOrCreateMutex` (main.go:65-196).

Collection and resource names are modelled as single path segments
(plain file names, no separator characters), and paths as lists of
segments.  Machine-level details (permission bits, goroutine
scheduling) are outside the model; every operation is a pure state
transformer that also reports which per-collection locks it acquired.
-/

namespace FsDb

/-! ## Serializable values -/

mutual

/-- A structured value as accepted by `Driver.Write` (an `interface{}`
payload that `encoding/json` can encode). -/
inductive Json where
| null : Json
| bool (b : Bool) : Json
| num (n : Int) : Json
| str (s : String) : Json
| arr (elems : JsonArr) : Json
| obj (fields : JsonObj) : Json

/-- Elements of a JSON array, in order. -/
inductive JsonArr where
| nil : JsonArr
| cons (hd : Json) (tl : JsonArr) : JsonArr

/-- Fields of a JSON object, in order. -/
inductive JsonObj where
| nil : JsonObj
| cons (key : String) (val : Json) (tl : JsonObj) : JsonObj

end

/-- The opening-brace character (written via its code point). -/
def lb : Char := Char.ofNat 123

/-- The closing-brace character (written via its code point). -/
def rb : Char := Char.ofNat 125

/-- Decimal digit character for a digit `0..9`. -/
def digitChr (d : Nat) : Char :=
  if d = 0 then '0' else if d = 1 then '1' else if d = 2 then '2'
  else if d = 3 then '3' else if d = 4 then '4' else if d = 5 then '5'
  else if d = 6 then '6' else if d = 7 then '7' else if d = 8 then '8' else '9'

/-- Little-endian digit characters of `n`; the first argument is
structural fuel (`n` itself is enough). -/
def natCharsAux : Nat → Nat → List Char
| 0, _ => []
| _ + 1, 0 => []
| f + 1, n => digitChr (n % 10) :: natCharsAux f (n / 10)

/-- Decimal representation of a natural number, most significant digit
first. -/
def natChars (n : Nat) : List Char :=
  if n = 0 then ['0'] else (natCharsAux n n).reverse

/-- Decimal representation of an integer, as `encoding/json` prints it. -/
def intChars (n : Int) : List Char :=
  if n < 0 then '-' :: natChars n.natAbs else natChars n.natAbs

/-- JSON escape of a single character (the escapes `encoding/json`
needs for the round trip: quote, backslash and the common controls). -/
def escCh (c : Char) : List Char :=
  if c = '"' then ['\\', '"']
  else if c = '\\' then ['\\', '\\']
  else if c = '\n' then ['\\', 'n']
  else if c = '\t' then ['\\', 't']
  else if c = '\r' then ['\\', 'r']
  else [c]

/-- JSON escape of a character list. -/
def escL : List Char → List Char
| [] => []
| c :: t => escCh c ++ escL t

/-- Indentation emitted by `MarshalIndent` with indent string `"\t"`
at nesting depth `d`. -/
def ind (d : Nat) : List Char := List.replicate d '\t'

mutual

/-- Pretty-printed serialization of a value at depth `d`, exactly as
`json.MarshalIndent(v, "", "\t")` lays it out (main.go:90). -/
def serJ : Json → Nat → List Char
| .null, _ => ['n', 'u', 'l', 'l']
| .bool true, _ => ['t', 'r', 'u', 'e']
| .bool false, _ => ['f', 'a', 'l', 's', 'e']
| .num n, _ => intChars n
| .str s, _ => '"' :: (escL s.data ++ ['"'])
| .arr .nil, _ => ['[', ']']
| .arr (.cons x xs), d =>
    '[' :: '\n' :: (ind (d + 1) ++ (serJ x (d + 1) ++ (serA xs (d + 1) ++ ('\n' :: (ind d ++ [']'])))))
| .obj .nil, _ => [lb, rb]
| .obj (.cons k v tl), d =>
    lb :: '\n' :: (ind (d + 1) ++ (serKV k v (d + 1) ++ (serO tl (d + 1) ++ ('\n' :: (ind d ++ [rb])))))

/-- Serialization of the remaining array elements (each preceded by a
comma, newline and indentation). -/
def serA : JsonArr → Nat → List Char
| .nil, _ => []
| .cons x xs, d => ',' :: '\n' :: (ind d ++ (serJ x d ++ serA xs d))

/-- Serialization of the remaining object fields. -/
def serO : JsonObj → Nat → List Char
| .nil, _ => []
| .cons k v tl, d => ',' :: '\n' :: (ind d ++ (serKV k v d ++ serO tl d))

/-- Serialization of a single `"key": value` pair. -/
def serKV (k : String) (v : Json) (d : Nat) : List Char :=
  '"' :: (escL k.data ++ ('"' :: ':' :: ' ' :: serJ v d))

end

/-- The byte content `Driver.Write` produces for a value: the indented
serialization (as a string). -/
def serialize (v : Json) : String := String.mk (serJ v 0)

/-! ## The deserializer (`json.Unmarshal`) -/

/-- Whitespace recognised between JSON tokens. -/
def isWsCh (c : Char) : Bool :=
  c = ' ' || c = '\n' || c = '\t' || c = '\r'

/-- Drop leading whitespace. -/
def skipWs : List Char → List Char
| [] => []
| c :: t => if isWsCh c then skipWs t else c :: t

/-- Strip an expected literal prefix. -/
def stripP : List Char → List Char → Option (List Char)
| [], cs => some cs
| p :: ps, c :: cs => if c = p then stripP ps cs else none
| _ :: _, [] => none

/-- Undo a single-character escape. -/
def unescCh (c : Char) : Char :=
  if c = 'n' then '\n' else if c = 't' then '\t' else if c = 'r' then '\r' else c

/-- Scan a string body up to its closing quote, undoing escapes. -/
def pStrBody : List Char → Option (List Char × List Char)
| [] => none
| c :: cs =>
  if c = '"' then some ([], cs)
  else if c = '\\' then
    match cs with
    | [] => none
    | e :: cs2 =>
      match pStrBody cs2 with
      | some (l, r) => some (unescCh e :: l, r)
      | none => none
  else
    match pStrBody cs with
    | some (l, r) => some (c :: l, r)
    | none => none

/-- Numeric value of a digit character. -/
def digVal (c : Char) : Nat := c.toNat - 48

/-- Accumulate a run of decimal digits. -/
def pDigitsAux (acc : Nat) : List Char → Nat × List Char
| [] => (acc, [])
| c :: t => if c.isDigit then pDigitsAux (acc * 10 + digVal c) t else (acc, c :: t)

/-- Scan a non-empty run of decimal digits. -/
def pDigits : List Char → Option (Nat × List Char)
| [] => none
| c :: t => if c.isDigit then some (pDigitsAux (digVal c) t) else none

mutual

/-- Recursive-descent value scanner (fuel-indexed). -/
def pVal : Nat → List Char → Option (Json × List Char)
| 0, _ => none
| f + 1, cs0 =>
  match skipWs cs0 with
  | [] => none
  | c :: cs =>
    if c = 'n' then
      match stripP ['u', 'l', 'l'] cs with
      | some r => some (.null, r)
      | none => none
    else if c = 't' then
      match stripP ['r', 'u', 'e'] cs with
      | some r => some (.bool true, r)
      | none => none
    else if c = 'f' then
      match stripP ['a', 'l', 's', 'e'] cs with
      | some r => some (.bool false, r)
      | none => none
    else if c = '"' then
      match pStrBody cs with
      | some (l, r) => some (.str (String.mk l), r)
      | none => none
    else if c = '[' then
      let r := skipWs cs
      if r.head? = some ']' then some (.arr .nil, r.tail)
      else
        match pItems f r with
        | some (vs, r2) => some (.arr vs, r2)
        | none => none
    else if c = lb then
      let r := skipWs cs
      if r.head? = some rb then some (.obj .nil, r.tail)
      else
        match pFields f r with
        | some (fl, r2) => some (.obj fl, r2)
        | none => none
    else if c = '-' then
      match pDigits cs with
      | some (k, r) => some (.num (-(k : Int)), r)
      | none => none
    else if c.isDigit then
      match pDigits (c :: cs) with
      | some (k, r) => some (.num (k : Int), r)
      | none => none
    else none

/-- Scan the items of a non-empty array together with the closing
bracket. -/
def pItems : Nat → List Char → Option (JsonArr × List Char)
| 0, _ => none
| f + 1, cs =>
  match pVal f cs with
  | none => none
  | some (v, r1) =>
    let r := skipWs r1
    if r.head? = some ',' then
      match pItems f r.tail with
      | some (vs, r3) => some (.cons v vs, r3)
      | none => none
    else if r.head? = some ']' then some (.cons v .nil, r.tail)
    else none

/-- Scan the fields of a non-empty object together with the closing
brace. -/
def pFields : Nat → List Char → Option (JsonObj × List Char)
| 0, _ => none
| f + 1, cs =>
  match skipWs cs with
  | [] => none
  | c :: cs1 =>
    if c = '"' then
      match pStrBody cs1 with
      | none => none
      | some (k, r1) =>
        match skipWs r1 with
        | ':' :: r2 =>
          match pVal f r2 with
          | none => none
          | some (v, r3) =>
            let r := skipWs r3
            if r.head? = some ',' then
              match pFields f r.tail with
              | some (fl, r5) => some (.cons (String.mk k) v fl, r5)
              | none => none
            else if r.head? = some rb then some (.cons (String.mk k) v .nil, r.tail)
            else none
        | _ => none
    else none

end

/-- Deserialization of a byte string, as `json.Unmarshal` behaves on
the values this model can represent: one value, optionally surrounded
by whitespace (main.go:124). -/
def deserialize (s : String) : Option Json :=
  match pVal (s.data.length + 1) s.data with
  | some (v, rest) => if skipWs rest = [] then some v else none
  | none => none

/-! ## Filesystem model -/

/-- Error taxonomy of the spec (section 7), carrying the formatted
message where the code builds one. -/
inductive DbError where
| validation (msg : String) : DbError
| notFound (msg : String) : DbError
| ioError (msg : String) : DbError
| deserializationError : DbError

/-- A filesystem entry: a regular file with byte content, or a
directory with named children. -/
inductive Entry where
| file (content : String) : Entry
| dir (children : List (String × Entry)) : Entry

/-- First entry with the given name in a child list. -/
def findC : List (String × Entry) → String → Option Entry
| [], _ => none
| (m, e) :: t, n => if m = n then some e else findC t n

/-- Replace the entry with the given name, or append it. -/
def setC : List (String × Entry) → String → Entry → List (String × Entry)
| [], n, e => [(n, e)]
| (m, e0) :: t, n, e => if m = n then (m, e) :: t else (m, e0) :: setC t n e

/-- Remove the entry with the given name, if present. -/
def removeC : List (String × Entry) → String → List (String × Entry)
| [], _ => []
| (m, e0) :: t, n => if m = n then t else (m, e0) :: removeC t n

/-- Follow a path of segment names down the tree. -/
def lookupE : Entry → List String → Option Entry
| e, [] => some e
| .file _, _ :: _ => none
| .dir l, n :: p =>
  match findC l n with
  | some c => lookupE c p
  | none => none

/-- `os.MkdirAll`: create every missing directory along the path; fail
if a component exists as a regular file. -/
def mkdirAll : Entry → List String → Option Entry
| e, [] =>
  match e with
  | .dir _ => some e
  | .file _ => none
| .file _, _ :: _ => none
| .dir l, n :: p =>
  match mkdirAll ((findC l n).getD (.dir [])) p with
  | some c => some (.dir (setC l n c))
  | none => none

/-- `ioutil.WriteFile`: create or truncate the file at the path; fail
if the parent does not exist or the target is a directory. -/
def writeFileE : Entry → List String → String → Option Entry
| _, [], _ => none
| .file _, _ :: _, _ => none
| .dir l, [n], content =>
  match findC l n with
  | some (.dir _) => none
  | _ => some (.dir (setC l n (.file content)))
| .dir l, n :: p, content =>
  match findC l n with
  | some c =>
    match writeFileE c p content with
    | some c2 => some (.dir (setC l n c2))
    | none => none
  | none => none

/-- Place an entry at a path whose parent already exists as a
directory (the destination step of `os.Rename`). -/
def insertEntry : Entry → List String → Entry → Option Entry
| _, [], _ => none
| .file _, _ :: _, _ => none
| .dir l, [n], e => some (.dir (setC l n e))
| .dir l, n :: p, e =>
  match findC l n with
  | some c =>
    match insertEntry c p e with
    | some c2 => some (.dir (setC l n c2))
    | none => none
  | none => none

/-- `os.RemoveAll`: drop the subtree at the path; a no-op when nothing
is there (it reports success on a missing target). -/
def removeAllE : Entry → List String → Entry
| e, [] => e
| .file s, _ :: _ => .file s
| .dir l, [n] => .dir (removeC l n)
| .dir l, n :: p =>
  match findC l n with
  | some c => .dir (setC l n (removeAllE c p))
  | none => .dir l

/-- `os.Rename` as `Driver.Write` uses it: move the entry at `o` onto
`n`, replacing a regular file but refusing a directory target. -/
def renameE (fs : Entry) (o n : List String) : Option Entry :=
  match lookupE fs o with
  | none => none
  | some e =>
    match lookupE fs n with
    | some (.dir _) => none
    | _ => insertEntry (removeAllE fs o) n e

/-- Append a suffix to the last segment of a path (string
concatenation on the path, e.g. `record + ".json"`). -/
def appendToLast : List String → String → List String
| [], s => [s]
| [n], s => [n ++ s]
| n :: p, s => n :: appendToLast p s

/-- The `stat` helper (main.go:191-196): probe the path as given and
fall back to the `".json"`-suffixed path. -/
def statE (fs : Entry) (p : List String) : Option Entry :=
  match lookupE fs p with
  | some e => some e
  | none => lookupE fs (appendToLast p ".json")

/-- `ioutil.ReadFile`, with the error classified per the spec taxonomy. -/
def readFileE (fs : Entry) (p : List String) : Except DbError String :=
  match lookupE fs p with
  | some (.file s) => .ok s
  | some (.dir _) => .error (.ioError "is a directory")
  | none => .error (.notFound "no such file or directory")

/-- Insert into a name-sorted child list. -/
def insSorted (x : String × Entry) : List (String × Entry) → List (String × Entry)
| [] => [x]
| y :: t => if x.1 ≤ y.1 then x :: y :: t else y :: insSorted x t

/-- Sort a child list by name (`ioutil.ReadDir` returns entries sorted
by filename). -/
def sortC (l : List (String × Entry)) : List (String × Entry) :=
  l.foldr insSorted []

/-- `ioutil.ReadDir`: the directory's entries sorted by name, or an
error if the path is not a directory. -/
def readDirE (fs : Entry) (p : List String) : Option (List (String × Entry)) :=
  match lookupE fs p with
  | some (.dir l) => some (sortC l)
  | _ => none

end FsDb

namespace FsDb

/-! ## The driver -/

/-- The engine state that matters to the model: the root directory
path and the mutex registry.  A lock object is identified by the
`Nat` tag it was created with; `nextId` is the next fresh tag. -/
structure Driver where
  dir : List String
  mutexes : List (String × Nat)
  nextId : Nat

/-- Registry lookup (first match). -/
def lookupMu : List (String × Nat) → String → Option Nat
| [], _ => none
| (m, i) :: t, n => if m = n then some i else lookupMu t n

/-- `Driver.GetOrCreateMutex` (main.go:177-188): return the collection's
lock, creating it on first use. -/
def getOrCreateMutex (d : Driver) (collection : String) : Nat × Driver :=
  match lookupMu d.mutexes collection with
  | some m => (m, d)
  | none => (d.nextId, ⟨d.dir, d.mutexes ++ [(collection, d.nextId)], d.nextId + 1⟩)

/-- Result of a driver operation: the returned value or error, the
filesystem and driver afterwards, and the per-collection locks the
call acquired (in order). -/
structure OpOut (α : Type) where
  res : Except DbError α
  fs : Entry
  drv : Driver
  locks : List String

/-- `Driver.Write` (main.go:65-102). -/
def write (fs : Entry) (d : Driver) (collection resource : String) (v : Json) : OpOut Unit :=
  if collection = "" then
    ⟨.error (.validation "Missing collection - no place to save record!"), fs, d, []⟩
  else if resource = "" then
    ⟨.error (.validation "Missing resource - unable to save record (no name)!"), fs, d, []⟩
  else
    let d1 := (getOrCreateMutex d collection).2
    let dirP := d.dir ++ [collection]
    let fnlP := dirP ++ [resource ++ ".json"]
    let tmpP := dirP ++ [resource ++ ".json" ++ ".tmp"]
    match mkdirAll fs dirP with
    | none => ⟨.error (.ioError "mkdir failed"), fs, d1, [collection]⟩
    | some fs1 =>
      let b := serialize v ++ "\n"
      match writeFileE fs1 tmpP b with
      | none => ⟨.error (.ioError "write file failed"), fs1, d1, [collection]⟩
      | some fs2 =>
        match renameE fs2 tmpP fnlP with
        | none => ⟨.error (.ioError "rename failed"), fs2, d1, [collection]⟩
        | some fs3 => ⟨.ok (), fs3, d1, [collection]⟩

/-- `Driver.Read` (main.go:104-125).  Takes no lock and mutates
nothing, which the return type makes explicit. -/
def read (fs : Entry) (d : Driver) (collection resource : String) : Except DbError Json :=
  if collection = "" then .error (.validation "Missing collection - unable to read!")
  else if resource = "" then .error (.validation "Missing resource - unable to read record!")
  else
    let record := d.dir ++ [collection, resource]
    match statE fs record with
    | none => .error (.notFound "no such file or directory")
    | some _ =>
      match readFileE fs (appendToLast record ".json") with
      | .error e => .error e
      | .ok b =>
        match deserialize b with
        | some j => .ok j
        | none => .error .deserializationError

/-- The loop of `Driver.ReadAll` (main.go:143-149): read each listed
entry back through `ioutil.ReadFile`, stopping at the first error. -/
def readAllLoop (fs : Entry) (dirP : List String) : List (String × Entry) → Except DbError (List String)
| [] => .ok []
| (name, _) :: t =>
  match readFileE fs (dirP ++ [name]) with
  | .error e => .error e
  | .ok b =>
    match readAllLoop fs dirP t with
    | .ok rs => .ok (b :: rs)
    | .error e => .error e

/-- `Driver.ReadAll` (main.go:127-152).  Note the `ReadDir` error is
discarded by the code (`files, _ := ioutil.ReadDir(dir)`), modelled by
`Option.getD []`. -/
def readAll (fs : Entry) (d : Driver) (collection : String) : Except DbError (List String) :=
  if collection = "" then .error (.validation "Missing collection - unable to read")
  else
    let dirP := d.dir ++ [collection]
    match statE fs dirP with
    | none => .error (.notFound "no such file or directory")
    | some _ => readAllLoop fs dirP ((readDirE fs dirP).getD [])

/-- `filepath.Join(collection, resource)` restricted to single-segment
names: empty components vanish. -/
def joinCR (collection resource : String) : List String :=
  (if collection = "" then [] else [collection]) ++ (if resource = "" then [] else [resource])

/-- `Driver.Delete` (main.go:154-175).  There is no empty-name
validation; the collection lock is always taken and the `stat` probe
decides between directory, file and not-found. -/
def delete (fs : Entry) (d : Driver) (collection resource : String) : OpOut Unit :=
  let path := joinCR collection resource
  let d1 := (getOrCreateMutex d collection).2
  let dirP := d.dir ++ path
  match statE fs dirP with
  | none =>
    ⟨.error (.notFound ("unable to find file or directory named " ++ String.intercalate "/" path ++ "\n")), fs, d1, [collection]⟩
  | some (.dir _) => ⟨.ok (), removeAllE fs dirP, d1, [collection]⟩
  | some (.file _) => ⟨.ok (), removeAllE fs (appendToLast dirP ".json"), d1, [collection]⟩

/-! ## Auxiliary measures, predicates and concrete fixtures -/

mutual

/-- Fuel needed by `pVal` to scan a serialized value. -/
def NJ : Json → Nat
| .null => 1
| .bool _ => 1
| .num _ => 1
| .str _ => 1
| .arr l => 1 + NA l
| .obj l => 1 + NO l

/-- Fuel needed by `pItems` for the remaining array elements. -/
def NA : JsonArr → Nat
| .nil => 0
| .cons x xs => 1 + NJ x + NA xs

/-- Fuel needed by `pFields` for the remaining object fields. -/
def NO : JsonObj → Nat
| .nil => 0
| .cons _ v tl => 1 + NJ v + NO tl

end

/-- A character list made of whitespace only. -/
def wsOnly (w : List Char) : Prop := ∀ c ∈ w, isWsCh c = true

/-- The list does not start with a decimal digit. -/
def noDigHead : List Char → Prop
| [] => True
| c :: _ => c.isDigit = false

/-- Content of a directory entry (empty for a subdirectory). -/
def entryContentD (p : String × Entry) : String :=
  match p.2 with
  | .file s => s
  | .dir _ => ""

/-- Pairwise-distinct child names (true of any real directory). -/
def keysDistinct (l : List (String × Entry)) : Prop :=
  l.Pairwise (fun a b => a.1 ≠ b.1)

/-- Every child is a regular file. -/
def allFilesP (l : List (String × Entry)) : Prop :=
  ∀ p ∈ l, ∃ s, p.2 = Entry.file s

/-- A fresh database root `db` inside the super-root. -/
def fsEmpty : Entry := .dir [("db", .dir [])]

/-- A database with one collection `users` holding `john.json`. -/
def fsUsers : Entry := .dir [("db", .dir [("users", .dir [("john.json", .file "1\n")])])]

/-- A database whose `users` collection holds a bare (extensionless)
regular file `notes`. -/
def fsNotes : Entry := .dir [("db", .dir [("users", .dir [("notes", .file "x")])])]

/-- A database with a regular file `users.json` and no `users`
directory. -/
def fsFlat : Entry := .dir [("db", .dir [("users.json", .file "zz")])]

/-- A database where the name `users` is taken by a regular file, so
`MkdirAll` fails. -/
def fsBlocked : Entry := .dir [("db", .dir [("users", .file "blocked")])]

/-- A driver rooted at `db` with an empty mutex registry. -/
def drv0 : Driver := ⟨["db"], [], 0⟩

/-- A driver rooted at `db` whose registry already holds the lock for
`users`. -/
def drv1 : Driver := ⟨["db"], [("users", 0)], 1⟩

/-- A small record value. -/
def sampleVal : Json := .obj (.cons "Name" (.str "John") (.cons "Age" (.num 23) .nil))

end FsDb

namespace FsDb

/-! ## Child-list lemmas -/

theorem findC_setC_self (l : List (String × Entry)) (n : String) (e : Entry) :
    findC (setC l n e) n = some e := by
  induction l with
  | nil => simp [setC, findC]
  | cons h t ih =>
    obtain ⟨m, e0⟩ := h
    by_cases hm : m = n
    · subst hm; simp [setC, findC]
    · simp [setC, findC, hm, ih]

theorem findC_setC_ne (l : List (String × Entry)) (n m : String) (e : Entry)
    (hm : m ≠ n) : findC (setC l n e) m = findC l m := by
  induction l with
  | nil => simp [setC, findC, Ne.symm hm]
  | cons h t ih =>
    obtain ⟨k, e0⟩ := h
    by_cases hk : k = n
    · subst hk; simp [setC, findC, Ne.symm hm]
    · simp [setC, findC, hk, ih]

theorem setC_of_findC (l : List (String × Entry)) (n : String) (c : Entry)
    (h : findC l n = some c) : setC l n c = l := by
  induction l with
  | nil => simp [findC] at h
  | cons hd t ih =>
    obtain ⟨k, e0⟩ := hd
    by_cases hk : k = n
    · subst hk
      simp [findC] at h
      simp [setC, h]
    · simp [findC, hk] at h
      simp [setC, hk, ih h]

theorem findC_none_of_all_ne (l : List (String × Entry)) (n : String)
    (h : ∀ p ∈ l, p.1 ≠ n) : findC l n = none := by
  induction l with
  | nil => simp [findC]
  | cons hd t ih =>
    obtain ⟨k, e0⟩ := hd
    have hk : k ≠ n := h (k, e0) (by simp)
    simp only [findC, if_neg hk]
    exact ih (fun p hp => h p (by simp [hp]))

theorem findC_removeC_self (l : List (String × Entry)) (n : String)
    (hnd : keysDistinct l) : findC (removeC l n) n = none := by
  induction l with
  | nil => simp [removeC, findC]
  | cons hd t ih =>
    obtain ⟨k, e0⟩ := hd
    simp only [keysDistinct, List.pairwise_cons] at hnd
    by_cases hk : k = n
    · subst hk
      simp only [removeC, if_pos rfl]
      exact findC_none_of_all_ne t k (fun p hp => Ne.symm (hnd.1 p hp))
    · simp only [removeC, if_neg hk, findC, if_neg hk]
      exact ih hnd.2

theorem findC_removeC_ne (l : List (String × Entry)) (n m : String)
    (hm : m ≠ n) : findC (removeC l n) m = findC l m := by
  induction l with
  | nil => simp [removeC]
  | cons hd t ih =>
    obtain ⟨k, e0⟩ := hd
    by_cases hk : k = n
    · subst hk
      simp [removeC, findC, Ne.symm hm]
    · simp [removeC, hk, findC, ih]

theorem removeC_of_findC_none (l : List (String × Entry)) (n : String)
    (h : findC l n = none) : removeC l n = l := by
  induction l with
  | nil => simp [removeC]
  | cons hd t ih =>
    obtain ⟨k, e0⟩ := hd
    by_cases hk : k = n
    · subst hk; simp [findC] at h
    · simp [findC, hk] at h
      simp [removeC, hk, ih h]

/-! ## Path lemmas -/

theorem lookupE_append (p q : List String) (fs : Entry) :
    lookupE fs (p ++ q) = (lookupE fs p).bind (fun e => lookupE e q) := by
  induction p generalizing fs with
  | nil => simp [lookupE]
  | cons n p ih =>
    cases fs with
    | file s => simp [lookupE]
    | dir l =>
      simp only [List.cons_append, lookupE]
      cases findC l n with
      | none => simp
      | some c => simp [ih]

theorem lookupE_emptyDir (q : List String) (hq : q ≠ []) :
    lookupE (.dir []) q = none := by
  cases q with
  | nil => exact absurd rfl hq
  | cons n t => simp [lookupE, findC]

theorem consShape (p : List String) (a : String) :
    ∃ h t, p ++ [a] = h :: t := by
  cases p <;> exact ⟨_, _, rfl⟩

theorem mkdirAll_lookup_last (p : List String) (fs fs1 : Entry)
    (h : mkdirAll fs p = some fs1) (a : String) :
    lookupE fs1 (p ++ [a]) = lookupE fs (p ++ [a]) := by
  induction p generalizing fs fs1 with
  | nil =>
    cases fs with
    | file s => simp [mkdirAll] at h
    | dir l =>
      simp only [mkdirAll, Option.some.injEq] at h
      subst h; rfl
  | cons n p ih =>
    cases fs with
    | file s => simp [mkdirAll] at h
    | dir l =>
      cases hrec : mkdirAll ((findC l n).getD (.dir [])) p with
      | none =>
        simp only [mkdirAll, hrec] at h
        exact Option.noConfusion h
      | some c2 =>
        simp only [mkdirAll, hrec, Option.some.injEq] at h
        subst h
        simp only [List.cons_append, lookupE, findC_setC_self]
        cases hf : findC l n with
        | some c =>
          simp only [hf, Option.getD_some] at hrec
          simp only [hf]
          exact ih c c2 hrec
        | none =>
          simp only [hf, Option.getD_none] at hrec
          simp only [hf]
          exact (ih (Entry.dir []) c2 hrec).trans (lookupE_emptyDir (p ++ [a]) (by simp))

theorem writeFileE_self (p : List String) (fs fs1 : Entry) (b : String)
    (h : writeFileE fs p b = some fs1) :
    lookupE fs1 p = some (.file b) := by
  induction p generalizing fs fs1 with
  | nil => simp [writeFileE] at h
  | cons n p ih =>
    cases fs with
    | file s => simp [writeFileE] at h
    | dir l =>
      cases p with
      | nil =>
        cases hf : findC l n with
        | some c =>
          cases c with
          | dir l2 =>
            simp only [writeFileE, hf] at h
            exact Option.noConfusion h
          | file s2 =>
            simp only [writeFileE, hf, Option.some.injEq] at h
            subst h
            simp [lookupE, findC_setC_self]
        | none =>
          simp only [writeFileE, hf, Option.some.injEq] at h
          subst h
          simp [lookupE, findC_setC_self]
      | cons m q =>
        cases hf : findC l n with
        | none =>
          simp only [writeFileE, hf] at h
          exact Option.noConfusion h
        | some c =>
          cases hrec : writeFileE c (m :: q) b with
          | none =>
            simp only [writeFileE, hf, hrec] at h
            exact Option.noConfusion h
          | some c2 =>
            simp only [writeFileE, hf, hrec, Option.some.injEq] at h
            subst h
            simp only [lookupE, findC_setC_self]
            exact ih c c2 hrec

theorem writeFileE_sibling (p : List String) (a m : String) (fs fs1 : Entry) (b : String)
    (h : writeFileE fs (p ++ [a]) b = some fs1) (hm : m ≠ a) :
    lookupE fs1 (p ++ [m]) = lookupE fs (p ++ [m]) := by
  induction p generalizing fs fs1 with
  | nil =>
    cases fs with
    | file s => simp [writeFileE] at h
    | dir l =>
      have hfin : fs1 = Entry.dir (setC l a (.file b)) := by
        cases hf : findC l a with
        | some c =>
          cases c with
          | dir l2 =>
            simp only [List.nil_append, writeFileE, hf] at h
            exact Option.noConfusion h
          | file s2 =>
            simp only [List.nil_append, writeFileE, hf, Option.some.injEq] at h
            exact h.symm
        | none =>
          simp only [List.nil_append, writeFileE, hf, Option.some.injEq] at h
          exact h.symm
      subst hfin
      simp only [List.nil_append, lookupE]
      rw [findC_setC_ne l a m _ hm]
  | cons n p ih =>
    cases fs with
    | file s => simp [writeFileE] at h
    | dir l =>
      obtain ⟨hh, ht, he⟩ := consShape p a
      rw [List.cons_append, he] at h
      cases hf : findC l n with
      | none =>
        simp only [writeFileE, hf] at h
        exact Option.noConfusion h
      | some c =>
        cases hrec : writeFileE c (hh :: ht) b with
        | none =>
          simp only [writeFileE, hf, hrec] at h
          exact Option.noConfusion h
        | some c2 =>
          simp only [writeFileE, hf, hrec, Option.some.injEq] at h
          subst h
          rw [← he] at hrec
          simp only [List.cons_append, lookupE, findC_setC_self, hf]
          exact ih c c2 hrec

theorem insertEntry_self (p : List String) (fs fs1 e : Entry)
    (h : insertEntry fs p e = some fs1) :
    lookupE fs1 p = some e := by
  induction p generalizing fs fs1 with
  | nil => simp [insertEntry] at h
  | cons n p ih =>
    cases fs with
    | file s => simp [insertEntry] at h
    | dir l =>
      cases p with
      | nil =>
        simp only [insertEntry, Option.some.injEq] at h
        subst h
        simp [lookupE, findC_setC_self]
      | cons m q =>
        cases hf : findC l n with
        | none =>
          simp only [insertEntry, hf] at h
          exact Option.noConfusion h
        | some c =>
          cases hrec : insertEntry c (m :: q) e with
          | none =>
            simp only [insertEntry, hf, hrec] at h
            exact Option.noConfusion h
          | some c2 =>
            simp only [insertEntry, hf, hrec, Option.some.injEq] at h
            subst h
            simp only [lookupE, findC_setC_self]
            exact ih c c2 hrec

theorem removeAllE_sibling (p : List String) (a m : String) (fs : Entry)
    (hm : m ≠ a) :
    lookupE (removeAllE fs (p ++ [a])) (p ++ [m]) = lookupE fs (p ++ [m]) := by
  induction p generalizing fs with
  | nil =>
    cases fs with
    | file s => rfl
    | dir l =>
      simp only [List.nil_append, removeAllE, lookupE]
      rw [findC_removeC_ne l a m hm]
  | cons n p ih =>
    cases fs with
    | file s => rfl
    | dir l =>
      obtain ⟨hh, ht, he⟩ := consShape p a
      rw [List.cons_append, he]
      cases hf : findC l n with
      | none => simp only [removeAllE, hf]
      | some c =>
        simp only [removeAllE, hf]
        rw [← he]
        simp only [lookupE, findC_setC_self, hf]
        exact ih c

theorem removeAllE_lookup_none (P : List String) (a : String) (fs : Entry)
    (hwf : ∀ lp, lookupE fs P = some (.dir lp) → keysDistinct lp) :
    lookupE (removeAllE fs (P ++ [a])) (P ++ [a]) = none := by
  induction P generalizing fs with
  | nil =>
    cases fs with
    | file s => rfl
    | dir l =>
      simp only [List.nil_append, removeAllE, lookupE]
      rw [findC_removeC_self l a (hwf l rfl)]
  | cons n P ih =>
    cases fs with
    | file s => rfl
    | dir l =>
      obtain ⟨hh, ht, he⟩ := consShape P a
      rw [List.cons_append, he]
      cases hf : findC l n with
      | none => simp only [removeAllE, hf, lookupE]
      | some c =>
        simp only [removeAllE, hf]
        rw [← he]
        simp only [lookupE, findC_setC_self, hf]
        exact ih c (fun lp hlp => hwf lp (by simp [lookupE, hf, hlp]))

theorem removeAllE_of_lookup_none (p : List String) (fs : Entry)
    (h : lookupE fs p = none) : removeAllE fs p = fs := by
  induction p generalizing fs with
  | nil => simp [lookupE] at h
  | cons n p ih =>
    cases fs with
    | file s => cases p <;> rfl
    | dir l =>
      cases p with
      | nil =>
        cases hf : findC l n with
        | some c =>
          simp only [lookupE, hf] at h
          exact Option.noConfusion h
        | none =>
          simp only [removeAllE]
          rw [removeC_of_findC_none l n hf]
      | cons m q =>
        cases hf : findC l n with
        | none => simp only [removeAllE, hf]
        | some c =>
          simp only [lookupE, hf] at h
          simp only [removeAllE, hf]
          rw [ih c h, setC_of_findC l n c hf]

theorem appendToLast_append (p : List String) (a s : String) :
    appendToLast (p ++ [a]) s = p ++ [a ++ s] := by
  induction p with
  | nil => rfl
  | cons n p ih =>
    obtain ⟨hh, ht, he⟩ := consShape p a
    simp only [List.cons_append]
    rw [he]
    simp only [appendToLast]
    rw [← he, ih]

/-! ## Registry lemmas -/

theorem lookupMu_append_some (l t : List (String × Nat)) (n : String) (m : Nat)
    (h : lookupMu l n = some m) : lookupMu (l ++ t) n = some m := by
  induction l with
  | nil => simp [lookupMu] at h
  | cons hd tl ih =>
    obtain ⟨k, i⟩ := hd
    simp only [lookupMu] at h
    simp only [List.cons_append, lookupMu]
    by_cases hk : k = n
    · rw [if_pos hk] at h ⊢; exact h
    · rw [if_neg hk] at h ⊢; exact ih h

theorem lookupMu_append_new (l : List (String × Nat)) (c : String) (i : Nat)
    (h : lookupMu l c = none) : lookupMu (l ++ [(c, i)]) c = some i := by
  induction l with
  | nil => simp [lookupMu]
  | cons hd tl ih =>
    obtain ⟨k, j⟩ := hd
    simp only [lookupMu] at h
    by_cases hk : k = c
    · rw [if_pos hk] at h; exact Option.noConfusion h
    · rw [if_neg hk] at h
      simp only [List.cons_append, lookupMu, if_neg hk]
      exact ih h

theorem getOrCreateMutex_dir (d : Driver) (c : String) :
    ((getOrCreateMutex d c).2).dir = d.dir := by
  unfold getOrCreateMutex
  cases lookupMu d.mutexes c <;> rfl

theorem getOrCreateMutex_mutexes (d : Driver) (c : String) :
    ∃ t, ((getOrCreateMutex d c).2).mutexes = d.mutexes ++ t := by
  unfold getOrCreateMutex
  cases lookupMu d.mutexes c with
  | some m => exact ⟨[], by simp⟩
  | none => exact ⟨[(c, d.nextId)], rfl⟩

theorem getOrCreateMutex_keeps (d : Driver) (c c2 : String) (m : Nat)
    (h : lookupMu d.mutexes c2 = some m) :
    lookupMu ((getOrCreateMutex d c).2).mutexes c2 = some m := by
  obtain ⟨t, ht⟩ := getOrCreateMutex_mutexes d c
  rw [ht]
  exact lookupMu_append_some _ _ _ _ h

/-! ## Sorted-listing lemmas -/

theorem mem_insSorted (x a : String × Entry) (l : List (String × Entry)) :
    a ∈ insSorted x l ↔ a = x ∨ a ∈ l := by
  induction l with
  | nil => simp [insSorted]
  | cons y t ih =>
    simp only [insSorted]
    by_cases hle : x.1 ≤ y.1
    · simp [hle]
    · simp only [if_neg hle, List.mem_cons, ih]
      tauto

theorem mem_sortC (a : String × Entry) (l : List (String × Entry)) :
    a ∈ sortC l ↔ a ∈ l := by
  induction l with
  | nil => simp [sortC]
  | cons y t ih =>
    simp only [sortC, List.foldr_cons] at ih ⊢
    rw [mem_insSorted]
    simp [ih]

theorem findC_of_mem_distinct (l : List (String × Entry)) (n : String) (e : Entry)
    (hnd : keysDistinct l) (hm : (n, e) ∈ l) : findC l n = some e := by
  induction l with
  | nil => simp at hm
  | cons hd t ih =>
    obtain ⟨k, e0⟩ := hd
    simp only [keysDistinct, List.pairwise_cons] at hnd
    rcases List.mem_cons.mp hm with h1 | h2
    · have h1a : n = k := congrArg Prod.fst h1
      have h1b : e = e0 := congrArg Prod.snd h1
      subst h1a
      subst h1b
      simp [findC]
    · by_cases hk : k = n
      · exact absurd hk (hnd.1 (n, e) h2)
      · simp only [findC, if_neg hk]
        exact ih hnd.2 h2

/-! ## ReadAll loop lemma -/

theorem readAllLoop_files (fs : Entry) (dirP : List String) (fl : List (String × Entry))
    (h : ∀ p ∈ fl, readFileE fs (dirP ++ [p.1]) = .ok (entryContentD p)) :
    readAllLoop fs dirP fl = .ok (fl.map entryContentD) := by
  induction fl with
  | nil => rfl
  | cons hd t ih =>
    obtain ⟨name, e⟩ := hd
    have h1 := h (name, e) (by simp)
    have h2 := ih (fun p hp => h p (by simp [hp]))
    simp only [readAllLoop, h1, h2, List.map_cons]

/-! ## String helpers -/

theorem strAppend_data (s t : String) : (s ++ t).data = s.data ++ t.data := rfl

theorem strMk_data (s : String) : String.mk s.data = s := rfl

theorem strAppend_ne (s t : String) (h : t ≠ "") : s ++ t ≠ s := by
  intro he
  apply h
  have hd := congrArg String.data he
  rw [strAppend_data] at hd
  have hlen := congrArg List.length hd
  simp only [List.length_append] at hlen
  have ht : t.data = [] := List.eq_nil_of_length_eq_zero (by omega)
  cases t with
  | mk data =>
    simp only at ht
    subst ht
    rfl

theorem strAppend_ne_empty (s t : String) (h : t ≠ "") : s ++ t ≠ "" := by
  intro he
  apply h
  have hd := congrArg String.data he
  rw [strAppend_data] at hd
  have ht : t.data = [] := by
    have hlen := congrArg List.length hd
    simp only [List.length_append, List.length_nil] at hlen
    exact List.eq_nil_of_length_eq_zero (by omega)
  cases t with
  | mk data =>
    simp only at ht
    subst ht
    rfl

end FsDb

namespace FsDb

/-! ## Scanner round-trip: whitespace and tokens -/

theorem NJ_pos (v : Json) : 1 ≤ NJ v := by
  cases v <;> simp [NJ]

theorem skipWs_stop (c : Char) (t : List Char) (h : isWsCh c = false) :
    skipWs (c :: t) = c :: t := by
  simp [skipWs, h]

theorem skipWs_append_ws (W : List Char) (hw : wsOnly W) (z : List Char) :
    skipWs (W ++ z) = skipWs z := by
  induction W with
  | nil => rfl
  | cons c t ih =>
    have hc := hw c (by simp)
    simp only [List.cons_append, skipWs, hc, if_true]
    exact ih (fun c2 h2 => hw c2 (by simp [h2]))

theorem wsOnly_nil : wsOnly [] := by
  intro c hc
  simp at hc

theorem wsOnly_ind (d : Nat) : wsOnly (ind d) := by
  intro c hc
  rw [ind, List.mem_replicate] at hc
  rw [hc.2]
  decide

theorem wsOnly_cons (c : Char) (W : List Char) (hc : isWsCh c = true)
    (hw : wsOnly W) : wsOnly (c :: W) := by
  intro c2 h2
  rcases List.mem_cons.mp h2 with h | h
  · rw [h]; exact hc
  · exact hw c2 h

theorem wsOnly_single_space : wsOnly [' '] := by
  intro c hc
  simp at hc
  rw [hc]
  decide

theorem stripP_self (p rest : List Char) : stripP p (p ++ rest) = some rest := by
  induction p with
  | nil => rfl
  | cons c t ih => simp [stripP, ih]

theorem pStrBody_escL (l rest : List Char) :
    pStrBody (escL l ++ ('"' :: rest)) = some (l, rest) := by
  induction l with
  | nil =>
    simp only [escL, List.nil_append]
    rw [pStrBody.eq_def]
    simp
  | cons c t ih =>
    by_cases h1 : c = '"'
    · subst h1
      simp only [escL, escCh, if_pos rfl, List.cons_append, List.append_assoc]
      rw [pStrBody.eq_def]
      simp [ih, unescCh]
    · by_cases h2 : c = '\\'
      · subst h2
        simp only [escL]
        rw [show escCh '\\' = ['\\', '\\'] from by decide]
        simp only [List.cons_append, List.nil_append, List.append_assoc]
        rw [pStrBody.eq_def]
        simp [ih, unescCh]
      · by_cases h3 : c = '\n'
        · subst h3
          simp only [escL]
          rw [show escCh '\n' = ['\\', 'n'] from by decide]
          simp only [List.cons_append, List.nil_append, List.append_assoc]
          rw [pStrBody.eq_def]
          simp [ih, unescCh]
        · by_cases h4 : c = '\t'
          · subst h4
            simp only [escL]
            rw [show escCh '\t' = ['\\', 't'] from by decide]
            simp only [List.cons_append, List.nil_append, List.append_assoc]
            rw [pStrBody.eq_def]
            simp [ih, unescCh]
          · by_cases h5 : c = '\r'
            · subst h5
              simp only [escL]
              rw [show escCh '\r' = ['\\', 'r'] from by decide]
              simp only [List.cons_append, List.nil_append, List.append_assoc]
              rw [pStrBody.eq_def]
              simp [ih, unescCh]
            · simp only [escL, escCh, if_neg h1, if_neg h2, if_neg h3, if_neg h4, if_neg h5,
                List.cons_append, List.nil_append, List.append_assoc]
              rw [pStrBody.eq_def]
              simp [h1, h2, ih]

/-! ## Scanner round-trip: numbers -/

theorem digitChr_isDigit (m : Nat) : (digitChr m).isDigit = true := by
  unfold digitChr
  split_ifs <;> decide

theorem digVal_digitChr (m : Nat) (h : m < 10) : digVal (digitChr m) = m := by
  interval_cases m <;> decide

theorem ne_char_of_digit (c x : Char) (h : c.isDigit = true)
    (hx : x.isDigit = false) : ¬(c = x) := by
  intro he
  rw [he, hx] at h
  exact Bool.noConfusion h

theorem isWsCh_digit (c : Char) (h : c.isDigit = true) : isWsCh c = false := by
  have h1 := ne_char_of_digit c ' ' h (by decide)
  have h2 := ne_char_of_digit c '\n' h (by decide)
  have h3 := ne_char_of_digit c '\t' h (by decide)
  have h4 := ne_char_of_digit c '\r' h (by decide)
  simp [isWsCh, h1, h2, h3, h4]

theorem natCharsAux_digits (f : Nat) : ∀ (n : Nat), ∀ c ∈ natCharsAux f n, c.isDigit = true := by
  induction f with
  | zero => intro n c hc; simp [natCharsAux] at hc
  | succ f ih =>
    intro n c hc
    cases n with
    | zero => simp [natCharsAux] at hc
    | succ n0 =>
      simp only [natCharsAux, List.mem_cons] at hc
      rcases hc with h | h
      · rw [h]; exact digitChr_isDigit _
      · exact ih _ c h

theorem pDigitsAux_append (B rest : List Char) (acc : Nat)
    (hB : ∀ c ∈ B, c.isDigit = true) (hr : noDigHead rest) :
    pDigitsAux acc (B ++ rest) = (B.foldl (fun a c => a * 10 + digVal c) acc, rest) := by
  induction B generalizing acc with
  | nil =>
    cases rest with
    | nil => rfl
    | cons c t =>
      simp only [noDigHead] at hr
      simp [pDigitsAux, hr]
  | cons c t ih =>
    have hc := hB c (by simp)
    simp only [List.cons_append, pDigitsAux, hc, if_true, List.foldl_cons]
    exact ih _ (fun c2 h2 => hB c2 (by simp [h2]))

theorem foldr_natCharsAux (f : Nat) : ∀ (n : Nat), n ≤ f →
    (natCharsAux f n).foldr (fun c a => a * 10 + digVal c) 0 = n := by
  induction f with
  | zero =>
    intro n hn
    have : n = 0 := by omega
    subst this
    rfl
  | succ f ih =>
    intro n hn
    cases n with
    | zero => rfl
    | succ n0 =>
      simp only [natCharsAux, List.foldr_cons]
      rw [ih ((n0 + 1) / 10) (by omega)]
      rw [digVal_digitChr ((n0 + 1) % 10) (by omega)]
      omega

theorem pDigits_natChars (n : Nat) (rest : List Char) (hr : noDigHead rest) :
    pDigits (natChars n ++ rest) = some (n, rest) := by
  by_cases h0 : n = 0
  · subst h0
    have hz := pDigitsAux_append [] rest 0 (by simp) hr
    simp only [List.nil_append, List.foldl_nil] at hz
    simp [natChars, pDigits, digVal, hz]
  · rw [natChars, if_neg h0]
    cases hB : (natCharsAux n n).reverse with
    | nil =>
      exfalso
      have : natCharsAux n n = [] := by
        have := congrArg List.reverse hB
        simpa using this
      cases hn : n with
      | zero => exact h0 hn
      | succ n0 =>
        rw [hn] at this
        simp [natCharsAux] at this
    | cons c B2 =>
      have hdig : ∀ x ∈ c :: B2, x.isDigit = true := by
        intro x hx
        rw [← hB] at hx
        exact natCharsAux_digits n n x (List.mem_reverse.mp hx)
      have hc := hdig c (by simp)
      simp only [List.cons_append, pDigits, hc, if_true]
      rw [pDigitsAux_append B2 rest (digVal c) (fun x hx => hdig x (by simp [hx])) hr]
      have hfold : (c :: B2).foldl (fun a x => a * 10 + digVal x) 0 = n := by
        rw [← hB, List.foldl_reverse]
        exact foldr_natCharsAux n n le_rfl
      simp only [List.foldl_cons] at hfold
      rw [show (0 * 10 + digVal c) = digVal c by omega] at hfold
      rw [hfold]

end FsDb

namespace FsDb

/-! ## Head characters of serialized output -/

theorem natChars_head (m : Nat) : ∃ c t, natChars m = c :: t ∧ c.isDigit = true := by
  by_cases h0 : m = 0
  · subst h0
    refine ⟨'0', [], ?_, by decide⟩
    rw [natChars]
    simp
  · rw [natChars, if_neg h0]
    cases hB : (natCharsAux m m).reverse with
    | nil =>
      exfalso
      have hx : natCharsAux m m = [] := by simpa using congrArg List.reverse hB
      cases hm : m with
      | zero => exact h0 hm
      | succ m0 =>
        rw [hm] at hx
        simp [natCharsAux] at hx
    | cons c B2 =>
      refine ⟨c, B2, rfl, ?_⟩
      have hcmem : c ∈ natCharsAux m m := List.mem_reverse.mp (by rw [hB]; simp)
      exact natCharsAux_digits m m c hcmem

theorem serJ_head (v : Json) (d : Nat) :
    ∃ c t, serJ v d = c :: t ∧ isWsCh c = false ∧ ¬(c = ']') ∧ ¬(c = rb) := by
  cases v with
  | null => exact ⟨'n', ['u', 'l', 'l'], by simp [serJ], by decide, by decide, by decide⟩
  | bool b =>
    cases b
    · exact ⟨'f', ['a', 'l', 's', 'e'], by simp [serJ], by decide, by decide, by decide⟩
    · exact ⟨'t', ['r', 'u', 'e'], by simp [serJ], by decide, by decide, by decide⟩
  | num n =>
    rw [show serJ (.num n) d = intChars n from by simp [serJ]]
    by_cases hn : n < 0
    · exact ⟨'-', natChars n.natAbs, by rw [intChars, if_pos hn], by decide, by decide, by decide⟩
    · rw [intChars, if_neg hn]
      obtain ⟨c, t, hct, hcd⟩ := natChars_head n.natAbs
      exact ⟨c, t, hct, isWsCh_digit c hcd, ne_char_of_digit c ']' hcd (by decide),
        ne_char_of_digit c rb hcd (by decide)⟩
  | str s => exact ⟨'"', escL s.data ++ ['"'], by simp [serJ], by decide, by decide, by decide⟩
  | arr l =>
    cases l with
    | nil => exact ⟨'[', [']'], by simp [serJ], by decide, by decide, by decide⟩
    | cons x xs =>
      exact ⟨'[', '\n' :: (ind (d + 1) ++ (serJ x (d + 1) ++ (serA xs (d + 1) ++ '\n' :: (ind d ++ [']'])))),
        by simp [serJ], by decide, by decide, by decide⟩
  | obj l =>
    cases l with
    | nil => exact ⟨lb, [rb], by simp [serJ], by decide, by decide, by decide⟩
    | cons k v2 tl =>
      exact ⟨lb, '\n' :: (ind (d + 1) ++ (serKV k v2 (d + 1) ++ (serO tl (d + 1) ++ '\n' :: (ind d ++ [rb])))),
        by simp [serJ], by decide, by decide, by decide⟩

theorem noDigHead_serA (xs : JsonArr) (d : Nat) (X : List Char) :
    noDigHead (serA xs d ++ ('\n' :: X)) := by
  cases xs <;> simp [serA, noDigHead]

theorem noDigHead_serO (tl : JsonObj) (d : Nat) (X : List Char) :
    noDigHead (serO tl d ++ ('\n' :: X)) := by
  cases tl <;> simp [serO, noDigHead]

theorem noDigHead_nl (X : List Char) : noDigHead ('\n' :: X) := by
  simp [noDigHead]

end FsDb

namespace FsDb

/-! ## The scanner inverts the serializer -/

theorem serKV_eq (k : String) (v : Json) (d : Nat) :
    serKV k v d = '"' :: (escL k.data ++ ('"' :: ':' :: ' ' :: serJ v d)) := by
  simp [serKV]

theorem skipWs_tabs (d : Nat) (z : List Char) :
    skipWs (List.replicate d '\t' ++ z) = skipWs z :=
  skipWs_append_ws (ind d) (wsOnly_ind d) z

mutual

theorem rtVal (v : Json) (d f : Nat) (W rest : List Char) (hf : NJ v ≤ f)
    (hW : wsOnly W) (hr : noDigHead rest) :
    pVal f (W ++ (serJ v d ++ rest)) = some (v, rest) := by
  cases f with
  | zero => exact absurd hf (by have := NJ_pos v; omega)
  | succ f =>
    cases v with
    | null => simp [pVal, serJ, skipWs_append_ws W hW, skipWs, isWsCh, stripP]
    | bool b =>
      cases b <;> simp [pVal, serJ, skipWs_append_ws W hW, skipWs, isWsCh, stripP]
    | str s =>
      simp [pVal, serJ, skipWs_append_ws W hW, skipWs, isWsCh, pStrBody_escL, strMk_data]
    | num n =>
      rw [show serJ (.num n) d = intChars n from by simp [serJ]]
      by_cases hn : n < 0
      · rw [intChars, if_pos hn]
        have hd := pDigits_natChars n.natAbs rest hr
        have hlb : ¬(('-' : Char) = lb) := by decide
        simp [pVal, skipWs_append_ws W hW, skipWs, isWsCh, hd, hlb]
        simp [abs_of_neg hn]
      · rw [intChars, if_neg hn]
        obtain ⟨c, t, hct, hcd⟩ := natChars_head n.natAbs
        have hd := pDigits_natChars n.natAbs rest hr
        rw [hct] at hd
        simp only [List.cons_append] at hd
        rw [hct]
        have f1 := ne_char_of_digit c 'n' hcd (by decide)
        have f2 := ne_char_of_digit c 't' hcd (by decide)
        have f3 := ne_char_of_digit c 'f' hcd (by decide)
        have f4 := ne_char_of_digit c '"' hcd (by decide)
        have f5 := ne_char_of_digit c '[' hcd (by decide)
        have f6 := ne_char_of_digit c lb hcd (by decide)
        have f7 := ne_char_of_digit c '-' hcd (by decide)
        have fw := isWsCh_digit c hcd
        simp [pVal, skipWs_append_ws W hW, skipWs, fw, f1, f2, f3, f4, f5, f6, f7, hcd, hd]
        omega
    | arr l =>
      cases l with
      | nil => simp [pVal, serJ, skipWs_append_ws W hW, skipWs, isWsCh]
      | cons x xs =>
        obtain ⟨c0, t0, hse, hw0, hne1, hne2⟩ := serJ_head x (d + 1)
        have hit := rtArr x xs (d + 1) d f [] rest
          (by simp only [NJ] at hf; omega) wsOnly_nil hr
        simp only [List.nil_append] at hit
        rw [hse] at hit
        simp only [List.cons_append, List.append_assoc] at hit
        rw [show serJ (.arr (.cons x xs)) d
            = '[' :: '\n' :: (ind (d + 1) ++ (serJ x (d + 1) ++ (serA xs (d + 1) ++ ('\n' :: (ind d ++ [']'])))))
          from by simp [serJ]]
        rw [hse]
        have hnlw : isWsCh '\n' = true := by decide
        have hbrw : isWsCh '[' = false := by decide
        have htb : isWsCh '\t' = true := by decide
        simp [pVal, skipWs_append_ws W hW, skipWs_append_ws (ind (d + 1)) (wsOnly_ind (d + 1)),
          skipWs_tabs, htb, skipWs, hnlw, hbrw, hw0, hne1, hit]
    | obj l =>
      have hlbn : ¬(lb = 'n') := by decide
      have hlbt : ¬(lb = 't') := by decide
      have hlbf : ¬(lb = 'f') := by decide
      have hlbq : ¬(lb = '"') := by decide
      have hlbb : ¬(lb = '[') := by decide
      have hlbw : isWsCh lb = false := by decide
      have hrbw : isWsCh rb = false := by decide
      have hnlw : isWsCh '\n' = true := by decide
      cases l with
      | nil =>
        simp [pVal, serJ, skipWs_append_ws W hW, skipWs, hlbn, hlbt, hlbf, hlbq, hlbb, hlbw, hrbw]
      | cons k v2 tl =>
        have hfl := rtObj k v2 tl (d + 1) d f [] rest
          (by simp only [NJ] at hf; omega) wsOnly_nil hr
        simp only [List.nil_append] at hfl
        rw [show serKV k v2 (d + 1) = '"' :: (escL k.data ++ ('"' :: ':' :: ' ' :: serJ v2 (d + 1)))
          from by simp [serKV]] at hfl
        simp only [List.cons_append, List.append_assoc] at hfl
        rw [show serJ (.obj (.cons k v2 tl)) d
            = lb :: '\n' :: (ind (d + 1) ++ (serKV k v2 (d + 1) ++ (serO tl (d + 1) ++ ('\n' :: (ind d ++ [rb])))))
          from by simp [serJ]]
        rw [show serKV k v2 (d + 1) = '"' :: (escL k.data ++ ('"' :: ':' :: ' ' :: serJ v2 (d + 1)))
          from by simp [serKV]]
        have hqrb : ¬(('"' : Char) = rb) := by decide
        have hqw : isWsCh '"' = false := by decide
        have htb : isWsCh '\t' = true := by decide
        simp [pVal, skipWs_append_ws W hW, skipWs_append_ws (ind (d + 1)) (wsOnly_ind (d + 1)),
          skipWs_tabs, htb, skipWs, hlbn, hlbt, hlbf, hlbq, hlbb, hlbw, hnlw, hqw, hqrb, hfl]
termination_by sizeOf v

theorem rtArr (x : Json) (xs : JsonArr) (d dc f : Nat) (W rest : List Char)
    (hf : NA (.cons x xs) ≤ f) (hW : wsOnly W) (hr : noDigHead rest) :
    pItems f (W ++ (serJ x d ++ (serA xs d ++ ('\n' :: (ind dc ++ (']' :: rest)))))) = some (.cons x xs, rest) := by
  cases f with
  | zero =>
    exfalso
    simp only [NA] at hf
    omega
  | succ f =>
    have hv := rtVal x d f W (serA xs d ++ ('\n' :: (ind dc ++ (']' :: rest))))
      (by simp only [NA] at hf; omega) hW (noDigHead_serA xs d _)
    simp only [pItems, hv]
    cases xs with
    | nil =>
      have hrw : isWsCh ']' = false := by decide
      have hnlw : isWsCh '\n' = true := by decide
      simp [serA, skipWs, skipWs_append_ws (ind dc) (wsOnly_ind dc), hnlw, hrw]
    | cons y ys =>
      have hrec := rtArr y ys d dc f ('\n' :: ind d) rest
        (by simp only [NA] at hf ⊢; omega)
        (wsOnly_cons '\n' (ind d) (by decide) (wsOnly_ind d)) hr
      simp only [List.cons_append, List.append_assoc] at hrec
      have hcw : isWsCh ',' = false := by decide
      simp [serA, skipWs, hcw, hrec]
termination_by 1 + sizeOf x + sizeOf xs

theorem rtObj (k : String) (v : Json) (tl : JsonObj) (d dc f : Nat) (W rest : List Char)
    (hf : NO (.cons k v tl) ≤ f) (hW : wsOnly W) (hr : noDigHead rest) :
    pFields f (W ++ (serKV k v d ++ (serO tl d ++ ('\n' :: (ind dc ++ (rb :: rest)))))) = some (.cons k v tl, rest) := by
  cases f with
  | zero =>
    exfalso
    simp only [NO] at hf
    omega
  | succ f =>
    have hv := rtVal v d f [' '] (serO tl d ++ ('\n' :: (ind dc ++ (rb :: rest))))
      (by simp only [NO] at hf; omega) wsOnly_single_space (noDigHead_serO tl d _)
    simp only [List.cons_append, List.nil_append] at hv
    have hqw : isWsCh '"' = false := by decide
    have hcolw : isWsCh ':' = false := by decide
    have hnlw : isWsCh '\n' = true := by decide
    have hrbw : isWsCh rb = false := by decide
    have hrbc : ¬(rb = ',') := by decide
    rw [show serKV k v d = '"' :: (escL k.data ++ ('"' :: ':' :: ' ' :: serJ v d))
      from by simp [serKV]]
    cases tl with
    | nil =>
      simp only [serO, List.nil_append] at hv
      have htb : isWsCh '\t' = true := by decide
      simp [serO, pFields, skipWs_append_ws W hW, skipWs, skipWs_tabs, htb,
        skipWs_append_ws (ind dc) (wsOnly_ind dc), hqw, hcolw, hnlw, hrbw, hrbc,
        pStrBody_escL, hv, strMk_data]
    | cons k2 v2 tl2 =>
      have hrec := rtObj k2 v2 tl2 d dc f ('\n' :: ind d) rest
        (by simp only [NO] at hf ⊢; omega)
        (wsOnly_cons '\n' (ind d) (by decide) (wsOnly_ind d)) hr
      rw [show serKV k2 v2 d = '"' :: (escL k2.data ++ ('"' :: ':' :: ' ' :: serJ v2 d))
        from by simp [serKV]] at hrec
      simp only [List.cons_append, List.append_assoc] at hrec
      have hcw : isWsCh ',' = false := by decide
      have htb : isWsCh '\t' = true := by decide
      simp only [serO, serKV_eq, List.cons_append, List.append_assoc] at hv
      simp [serO, serKV_eq, pFields, skipWs_append_ws W hW, skipWs, skipWs_tabs, htb,
        hqw, hcolw, hnlw, hcw, pStrBody_escL, hv, hrec, strMk_data]
termination_by 1 + sizeOf v + sizeOf tl

end

end FsDb

namespace FsDb

/-! ## Fuel bound and the round trip at the String level -/

mutual

theorem szVal (v : Json) (d : Nat) : NJ v ≤ (serJ v d).length := by
  cases v with
  | null => simp [NJ, serJ]
  | bool b => cases b <;> simp [NJ, serJ]
  | str s => simp [NJ, serJ]
  | num n =>
    rw [show serJ (.num n) d = intChars n from by simp [serJ]]
    rw [intChars]
    by_cases hn : n < 0
    · rw [if_pos hn]
      simp [NJ]
    · rw [if_neg hn]
      obtain ⟨c, t, hct, _⟩ := natChars_head n.natAbs
      rw [hct]
      simp [NJ]
  | arr l =>
    cases l with
    | nil => simp [NJ, NA, serJ]
    | cons x xs =>
      have h1 := szVal x (d + 1)
      have h2 := szArr xs (d + 1)
      simp only [NJ, NA, serJ, List.length_cons, List.length_append]
      omega
  | obj l =>
    cases l with
    | nil => simp [NJ, NO, serJ]
    | cons k v2 tl =>
      have h1 := szVal v2 (d + 1)
      have h2 := szObj tl (d + 1)
      simp only [NJ, NO, serJ, serKV_eq, List.length_cons, List.length_append]
      omega

theorem szArr (xs : JsonArr) (d : Nat) : NA xs ≤ (serA xs d).length := by
  cases xs with
  | nil => simp [NA, serA]
  | cons x xs2 =>
    have h1 := szVal x d
    have h2 := szArr xs2 d
    simp only [NA, serA, List.length_cons, List.length_append]
    omega

theorem szObj (tl : JsonObj) (d : Nat) : NO tl ≤ (serO tl d).length := by
  cases tl with
  | nil => simp [NO, serO]
  | cons k v tl2 =>
    have h1 := szVal v d
    have h2 := szObj tl2 d
    simp only [NO, serO, serKV_eq, List.length_cons, List.length_append]
    omega

end

/-- The deserializer inverts the serializer on exactly the byte string
`Driver.Write` stores: the indented serialization plus one newline. -/
theorem deserialize_serialize (v : Json) :
    deserialize (serialize v ++ "\n") = some v := by
  have hdata : (serialize v ++ "\n").data = serJ v 0 ++ ['\n'] := rfl
  have hlen : NJ v ≤ (serJ v 0 ++ ['\n']).length + 1 := by
    have := szVal v 0
    simp only [List.length_append, List.length_cons, List.length_nil]
    omega
  have hv := rtVal v 0 ((serJ v 0 ++ ['\n']).length + 1) [] ['\n'] hlen wsOnly_nil
    (by simp [noDigHead])
  simp only [List.nil_append] at hv
  unfold deserialize
  rw [hdata, hv]
  simp [skipWs, isWsCh]

end FsDb

namespace FsDb

/-! ## Write characterization -/

theorem write_ok_content (fs : Entry) (d : Driver) (c r : String) (v : Json)
    (h : (write fs d c r v).res = .ok ()) :
    lookupE (write fs d c r v).fs (d.dir ++ [c, r ++ ".json"]) = some (.file (serialize v ++ "\n")) := by
  by_cases hc : c = ""
  · simp [write, hc] at h
  by_cases hr : r = ""
  · simp [write, hc, hr] at h
  cases hm : mkdirAll fs (d.dir ++ [c]) with
  | none => simp [write, hc, hr, hm] at h
  | some fs1 =>
    cases hw : writeFileE fs1 (d.dir ++ [c, r ++ ".json" ++ ".tmp"]) (serialize v ++ "\n") with
    | none => simp [write, hc, hr, hm, hw] at h
    | some fs2 =>
      cases hrn : renameE fs2 (d.dir ++ [c, r ++ ".json" ++ ".tmp"]) (d.dir ++ [c, r ++ ".json"]) with
      | none => simp [write, hc, hr, hm, hw, hrn] at h
      | some fs3 =>
        have hfs : (write fs d c r v).fs = fs3 := by
          simp [write, hc, hr, hm, hw, hrn]
        have htmp : lookupE fs2 (d.dir ++ [c, r ++ ".json" ++ ".tmp"]) = some (.file (serialize v ++ "\n")) :=
          writeFileE_self _ _ _ _ hw
        rw [hfs]
        unfold renameE at hrn
        rw [htmp] at hrn
        cases hfnl : lookupE fs2 (d.dir ++ [c, r ++ ".json"]) with
        | some e =>
          cases e with
          | dir l2 => rw [hfnl] at hrn; simp at hrn
          | file s2 =>
            rw [hfnl] at hrn
            simp only at hrn
            exact insertEntry_self _ _ _ _ hrn
        | none =>
          rw [hfnl] at hrn
          simp only at hrn
          exact insertEntry_self _ _ _ _ hrn

/-- C3: for all non-empty collection and resource names and every
serializable value, a successful `Write` followed by `Read` of the same
key succeeds and returns a value deep-equal to the one written — the
full round trip through serialization, the stored file and
deserialization (main.go:65-125). -/
theorem c3_write_read_roundtrip (fs : Entry) (d : Driver) (c r : String) (v : Json)
    (h : (write fs d c r v).res = .ok ()) :
    read (write fs d c r v).fs (write fs d c r v).drv c r = .ok v := by
  by_cases hc : c = ""
  · simp [write, hc] at h
  by_cases hr : r = ""
  · simp [write, hc, hr] at h
  have hcontent := write_ok_content fs d c r v h
  have hdir : (write fs d c r v).drv.dir = d.dir := by
    cases hm : mkdirAll fs (d.dir ++ [c]) with
    | none => simp [write, hc, hr, hm, getOrCreateMutex_dir]
    | some fs1 =>
      cases hw : writeFileE fs1 (d.dir ++ [c, r ++ ".json" ++ ".tmp"]) (serialize v ++ "\n") with
      | none => simp [write, hc, hr, hm, hw, getOrCreateMutex_dir]
      | some fs2 =>
        cases hrn : renameE fs2 (d.dir ++ [c, r ++ ".json" ++ ".tmp"]) (d.dir ++ [c, r ++ ".json"]) with
        | none => simp [write, hc, hr, hm, hw, hrn, getOrCreateMutex_dir]
        | some fs3 => simp [write, hc, hr, hm, hw, hrn, getOrCreateMutex_dir]
  have hatl : appendToLast ((write fs d c r v).drv.dir ++ [c, r]) ".json"
      = d.dir ++ [c, r ++ ".json"] := by
    rw [hdir]
    rw [show d.dir ++ [c, r] = (d.dir ++ [c]) ++ [r] from by simp]
    rw [appendToLast_append]
    simp
  have hread : readFileE (write fs d c r v).fs
      (appendToLast ((write fs d c r v).drv.dir ++ [c, r]) ".json") = .ok (serialize v ++ "\n") := by
    rw [hatl]
    simp [readFileE, hcontent]
  have hstat : ∃ e, statE (write fs d c r v).fs ((write fs d c r v).drv.dir ++ [c, r]) = some e := by
    unfold statE
    cases hb : lookupE (write fs d c r v).fs ((write fs d c r v).drv.dir ++ [c, r]) with
    | some e => exact ⟨e, rfl⟩
    | none =>
      rw [hatl, hcontent]
      exact ⟨_, rfl⟩
  obtain ⟨e, he⟩ := hstat
  simp [read, hc, hr, he, hread, deserialize_serialize]

/-- C3 witness: the round trip evaluated on a concrete record. -/
theorem c3_witness :
    read (write fsEmpty drv0 "users" "john" sampleVal).fs
      (write fsEmpty drv0 "users" "john" sampleVal).drv "users" "john" = .ok sampleVal :=
  c3_write_read_roundtrip fsEmpty drv0 "users" "john" sampleVal rfl

/-- C4: when `Write` fails, whatever error stage it reached, the
previously committed content at the final path is unchanged — a failed
`Write` never replaces committed data (main.go:85-101). -/
theorem c4_failed_write_preserves (fs : Entry) (d : Driver) (c r : String) (v : Json)
    (e : DbError) (h : (write fs d c r v).res = .error e) :
    lookupE (write fs d c r v).fs (d.dir ++ [c, r ++ ".json"])
      = lookupE fs (d.dir ++ [c, r ++ ".json"]) := by
  by_cases hc : c = ""
  · simp [write, hc]
  by_cases hr : r = ""
  · simp [write, hc, hr]
  have hne : r ++ ".json" ≠ r ++ ".json" ++ ".tmp" :=
    Ne.symm (strAppend_ne (r ++ ".json") ".tmp" (by decide))
  cases hm : mkdirAll fs (d.dir ++ [c]) with
  | none => simp [write, hc, hr, hm]
  | some fs1 =>
    have hpres1 : lookupE fs1 (d.dir ++ [c, r ++ ".json"]) = lookupE fs (d.dir ++ [c, r ++ ".json"]) := by
      have := mkdirAll_lookup_last (d.dir ++ [c]) fs fs1 hm (r ++ ".json")
      simpa using this
    cases hw : writeFileE fs1 (d.dir ++ [c, r ++ ".json" ++ ".tmp"]) (serialize v ++ "\n") with
    | none =>
      have hfs : (write fs d c r v).fs = fs1 := by
        simp [write, hc, hr, hm, hw]
      rw [hfs]
      exact hpres1
    | some fs2 =>
      have hw2 : writeFileE fs1 ((d.dir ++ [c]) ++ [r ++ ".json" ++ ".tmp"]) (serialize v ++ "\n") = some fs2 := by
        simpa using hw
      have hpres2 : lookupE fs2 (d.dir ++ [c, r ++ ".json"]) = lookupE fs1 (d.dir ++ [c, r ++ ".json"]) := by
        have := writeFileE_sibling (d.dir ++ [c]) (r ++ ".json" ++ ".tmp") (r ++ ".json") fs1 fs2
          (serialize v ++ "\n") hw2 hne
        simpa using this
      cases hrn : renameE fs2 (d.dir ++ [c, r ++ ".json" ++ ".tmp"]) (d.dir ++ [c, r ++ ".json"]) with
      | none =>
        have hfs : (write fs d c r v).fs = fs2 := by
          simp [write, hc, hr, hm, hw, hrn]
        rw [hfs, hpres2]
        exact hpres1
      | some fs3 =>
        exfalso
        simp [write, hc, hr, hm, hw, hrn] at h

/-- C4 witness: a `Write` that fails at directory creation (the
collection name is taken by a regular file) leaves the final path as it
was. -/
theorem c4_witness :
    lookupE (write fsBlocked drv0 "users" "john" sampleVal).fs (drv0.dir ++ ["users", "john" ++ ".json"])
      = lookupE fsBlocked (drv0.dir ++ ["users", "john" ++ ".json"]) :=
  c4_failed_write_preserves fsBlocked drv0 "users" "john" sampleVal (.ioError "mkdir failed") rfl

/-- C7: a successful `Write(collection, resource, value)` leaves the
file `<root>/<collection>/<resource>.json` holding exactly the
pretty-printed serialization of `value` followed by a single newline
and nothing else (main.go:81-101). -/
theorem c7_write_final_content (fs : Entry) (d : Driver) (c r : String) (v : Json)
    (h : (write fs d c r v).res = .ok ()) :
    lookupE (write fs d c r v).fs (d.dir ++ [c, r ++ ".json"]) = some (.file (serialize v ++ "\n")) :=
  write_ok_content fs d c r v h

/-- C7 witness: the stored bytes of a concrete record. -/
theorem c7_witness :
    lookupE (write fsEmpty drv0 "users" "john" sampleVal).fs (drv0.dir ++ ["users", "john" ++ ".json"])
      = some (.file (serialize sampleVal ++ "\n")) :=
  c7_write_final_content fsEmpty drv0 "users" "john" sampleVal rfl

end FsDb

namespace FsDb

/-! ## C1: empty-name validation -/

/-- C1 counterexample: `Delete` with an empty resource string does not
return a `ValidationError`; it acquires the collection lock, removes
the whole collection directory and reports success — refuting the
claim that every operation rejects empty names before any filesystem
mutation or lock acquisition (main.go:154-175 has no emptiness check). -/
theorem c1_counterexample :
    (delete fsUsers drv0 "users" "").res = .ok () ∧
    (delete fsUsers drv0 "users" "").locks = ["users"] ∧
    lookupE (delete fsUsers drv0 "users" "").fs ["db", "users"] = none ∧
    lookupE fsUsers ["db", "users"] = some (.dir [("john.json", .file "1\n")]) :=
  ⟨rfl, rfl, rfl, rfl⟩

/-- C1 (amended): `Write`, `Read` and `ReadAll` return a
`ValidationError` on an empty collection or resource string, mutating
nothing and acquiring no lock (their outputs are the unchanged state
with an empty lock list, and `Read`/`ReadAll` are pure by type);
`Delete` performs no such validation and always acquires the
collection lock, even for empty names. -/
theorem c1_empty_name_validation (fs : Entry) (d : Driver) (c r : String) (v : Json)
    (h : c = "" ∨ r = "") :
    (∃ m, write fs d c r v = ⟨.error (.validation m), fs, d, []⟩) ∧
    (∃ m, read fs d c r = .error (.validation m)) ∧
    (c = "" → ∃ m, readAll fs d c = .error (.validation m)) ∧
    (delete fs d c r).locks = [c] := by
  refine ⟨?_, ?_, ?_, ?_⟩
  · rcases h with hc | hr
    · exact ⟨"Missing collection - no place to save record!", by simp [write, hc]⟩
    · by_cases hc : c = ""
      · exact ⟨"Missing collection - no place to save record!", by simp [write, hc]⟩
      · exact ⟨"Missing resource - unable to save record (no name)!", by simp [write, hc, hr]⟩
  · rcases h with hc | hr
    · exact ⟨"Missing collection - unable to read!", by simp [read, hc]⟩
    · by_cases hc : c = ""
      · exact ⟨"Missing collection - unable to read!", by simp [read, hc]⟩
      · exact ⟨"Missing resource - unable to read record!", by simp [read, hc, hr]⟩
  · intro hc
    exact ⟨"Missing collection - unable to read", by simp [readAll, hc]⟩
  · cases hstat : statE fs (d.dir ++ joinCR c r) with
    | none => simp [delete, hstat]
    | some e => cases e <;> simp [delete, hstat]

/-- C1 witness: the amended statement at a concrete empty collection
name. -/
theorem c1_witness :
    (∃ m, write fsEmpty drv0 "" "x" sampleVal = ⟨.error (.validation m), fsEmpty, drv0, []⟩) ∧
    (∃ m, read fsEmpty drv0 "" "x" = .error (.validation m)) ∧
    ("" = "" → ∃ m, readAll fsEmpty drv0 "" = .error (.validation m)) ∧
    (delete fsEmpty drv0 "" "x").locks = [""] :=
  c1_empty_name_validation fsEmpty drv0 "" "x" sampleVal (Or.inl rfl)

/-! ## C2: bare versus extension-bearing resource identifiers -/

/-- C2 counterexample: with the resource stored at
`db/users/john.json`, identifying it as `"john.json"` makes `Read`
fail (it looks for `john.json.json`) and makes `Delete` report success
while leaving the file in place — refuting the claim that both
operations succeed transparently on either identifier form. -/
theorem c2_counterexample :
    read fsUsers drv0 "users" "john.json" = .error (.notFound "no such file or directory") ∧
    (delete fsUsers drv0 "users" "john.json").res = .ok () ∧
    lookupE (delete fsUsers drv0 "users" "john.json").fs ["db", "users", "john.json"]
      = some (.file "1\n") :=
  ⟨rfl, rfl, rfl⟩

/-- C2 (amended): for a resource stored at
`<root>/<collection>/<name>.json`, `Read` and `Delete` work as claimed
only for the bare identifier `<name>`: `Read` returns the deserialized
content and `Delete` removes exactly that file.  With the
extension-bearing identifier `<name>.json` the `stat` probe still
resolves the file, but `Read` then fails with `NotFoundError` (it
reads `<name>.json.json`) and `Delete` returns success without
removing the resource (its `RemoveAll` of `<name>.json.json` is a
no-op). -/
theorem c2_extension_asymmetry (fs : Entry) (d : Driver) (c name s : String) (j : Json)
    (hc : c ≠ "") (hn : name ≠ "")
    (h1 : lookupE fs (d.dir ++ [c, name]) = none)
    (h2 : lookupE fs (d.dir ++ [c, name ++ ".json"]) = some (.file s))
    (h3 : lookupE fs (d.dir ++ [c, name ++ ".json" ++ ".json"]) = none)
    (hj : deserialize s = some j)
    (hwf : ∀ lp, lookupE fs (d.dir ++ [c]) = some (.dir lp) → keysDistinct lp) :
    read fs d c name = .ok j ∧
    (delete fs d c name).res = .ok () ∧
    (delete fs d c name).fs = removeAllE fs (d.dir ++ [c, name ++ ".json"]) ∧
    lookupE (delete fs d c name).fs (d.dir ++ [c, name ++ ".json"]) = none ∧
    read fs d c (name ++ ".json") = .error (.notFound "no such file or directory") ∧
    (delete fs d c (name ++ ".json")).res = .ok () ∧
    (delete fs d c (name ++ ".json")).fs = fs := by
  have hne : name ++ ".json" ≠ "" := strAppend_ne_empty name ".json" (by decide)
  have hatl : appendToLast (d.dir ++ [c, name]) ".json" = d.dir ++ [c, name ++ ".json"] := by
    rw [show d.dir ++ [c, name] = (d.dir ++ [c]) ++ [name] from by simp, appendToLast_append]
    simp
  have hatl2 : appendToLast (d.dir ++ [c, name ++ ".json"]) ".json"
      = d.dir ++ [c, name ++ ".json" ++ ".json"] := by
    rw [show d.dir ++ [c, name ++ ".json"] = (d.dir ++ [c]) ++ [name ++ ".json"] from by simp,
      appendToLast_append]
    simp
  have hstat1 : statE fs (d.dir ++ [c, name]) = some (.file s) := by
    unfold statE
    rw [h1, hatl, h2]
  have hstat2 : statE fs (d.dir ++ [c, name ++ ".json"]) = some (.file s) := by
    unfold statE
    rw [h2]
  have hfs1 : (delete fs d c name).fs = removeAllE fs (d.dir ++ [c, name ++ ".json"]) := by
    simp [delete, joinCR, hc, hn, hstat1, hatl]
  refine ⟨?_, ?_, hfs1, ?_, ?_, ?_, ?_⟩
  · simp [read, hc, hn, hstat1, hatl, readFileE, h2, hj]
  · simp [delete, joinCR, hc, hn, hstat1]
  · rw [hfs1]
    have := removeAllE_lookup_none (d.dir ++ [c]) (name ++ ".json") fs hwf
    simpa using this
  · simp [read, hc, hne, hstat2, hatl2, readFileE, h3]
  · simp [delete, joinCR, hc, hne, hstat2]
  · have hfs2 : (delete fs d c (name ++ ".json")).fs
        = removeAllE fs (d.dir ++ [c, name ++ ".json" ++ ".json"]) := by
      simp [delete, joinCR, hc, hne, hstat2, hatl2]
    rw [hfs2]
    exact removeAllE_of_lookup_none _ _ h3

/-- C2 witness: the amended behaviour on the concrete store holding
`db/users/john.json`. -/
theorem c2_witness :
    read fsUsers drv0 "users" "john" = .ok (.num 1) ∧
    (delete fsUsers drv0 "users" "john").res = .ok () ∧
    (delete fsUsers drv0 "users" "john").fs
      = removeAllE fsUsers (drv0.dir ++ ["users", "john" ++ ".json"]) ∧
    lookupE (delete fsUsers drv0 "users" "john").fs (drv0.dir ++ ["users", "john" ++ ".json"]) = none ∧
    read fsUsers drv0 "users" ("john" ++ ".json") = .error (.notFound "no such file or directory") ∧
    (delete fsUsers drv0 "users" ("john" ++ ".json")).res = .ok () ∧
    (delete fsUsers drv0 "users" ("john" ++ ".json")).fs = fsUsers :=
  c2_extension_asymmetry fsUsers drv0 "users" "john" "1\n" (.num 1)
    (by decide) (by decide) rfl rfl rfl rfl
    (fun lp hlp => by
      have h2 : Entry.dir [("john.json", Entry.file "1\n")] = Entry.dir lp := Option.some.inj hlp
      rw [← Entry.dir.inj h2]
      simp [keysDistinct])

end FsDb

namespace FsDb

/-! ## C5: Delete dispatch on the stat-resolved target -/

/-- C5 counterexample: when the bare path itself is a regular file
(`db/users/notes` with no `notes.json`), `Delete` resolves a regular
file but removes `notes.json`, which does not exist — it reports
success and removes nothing, refuting the claim that the regular-file
branch removes exactly the resource's file. -/
theorem c5_counterexample :
    (delete fsNotes drv0 "users" "notes").res = .ok () ∧
    (delete fsNotes drv0 "users" "notes").fs = fsNotes ∧
    lookupE fsNotes ["db", "users", "notes"] = some (.file "x") :=
  ⟨rfl, rfl, rfl⟩

/-- C5 (amended): `Delete` dispatches on the kind of the stat-resolved
target.  A directory target is removed recursively; a regular file
resolved through the `".json"` fallback is removed exactly (and
siblings are untouched); when the bare path itself is the regular file,
the removal targets `path + ".json"`, so if that path is absent
`Delete` reports success while removing nothing; when nothing
resolves, it returns `NotFoundError` and changes nothing. -/
theorem c5_delete_dispatch (fs : Entry) (d : Driver) (c r : String)
    (hc : c ≠ "") (hr : r ≠ "")
    (hwf : ∀ lp, lookupE fs (d.dir ++ [c]) = some (.dir lp) → keysDistinct lp) :
    (∀ l, lookupE fs (d.dir ++ [c, r]) = some (.dir l) →
      (delete fs d c r).res = .ok () ∧
      (delete fs d c r).fs = removeAllE fs (d.dir ++ [c, r]) ∧
      lookupE (delete fs d c r).fs (d.dir ++ [c, r]) = none) ∧
    (∀ s, lookupE fs (d.dir ++ [c, r]) = none →
      lookupE fs (d.dir ++ [c, r ++ ".json"]) = some (.file s) →
      (delete fs d c r).res = .ok () ∧
      (delete fs d c r).fs = removeAllE fs (d.dir ++ [c, r ++ ".json"]) ∧
      lookupE (delete fs d c r).fs (d.dir ++ [c, r ++ ".json"]) = none ∧
      ∀ m, m ≠ r ++ ".json" →
        lookupE (delete fs d c r).fs (d.dir ++ [c, m]) = lookupE fs (d.dir ++ [c, m])) ∧
    (∀ s, lookupE fs (d.dir ++ [c, r]) = some (.file s) →
      lookupE fs (d.dir ++ [c, r ++ ".json"]) = none →
      (delete fs d c r).res = .ok () ∧ (delete fs d c r).fs = fs) ∧
    (statE fs (d.dir ++ [c, r]) = none →
      (∃ m, (delete fs d c r).res = .error (.notFound m)) ∧ (delete fs d c r).fs = fs) := by
  have hatl : appendToLast (d.dir ++ [c, r]) ".json" = d.dir ++ [c, r ++ ".json"] := by
    rw [show d.dir ++ [c, r] = (d.dir ++ [c]) ++ [r] from by simp, appendToLast_append]
    simp
  refine ⟨?_, ?_, ?_, ?_⟩
  · intro l hl
    have hstat : statE fs (d.dir ++ [c, r]) = some (.dir l) := by
      unfold statE
      rw [hl]
    have hfs : (delete fs d c r).fs = removeAllE fs (d.dir ++ [c, r]) := by
      simp [delete, joinCR, hc, hr, hstat]
    refine ⟨by simp [delete, joinCR, hc, hr, hstat], hfs, ?_⟩
    rw [hfs]
    have := removeAllE_lookup_none (d.dir ++ [c]) r fs hwf
    simpa using this
  · intro s h1 h2
    have hstat : statE fs (d.dir ++ [c, r]) = some (.file s) := by
      unfold statE
      rw [h1, hatl, h2]
    have hfs : (delete fs d c r).fs = removeAllE fs (d.dir ++ [c, r ++ ".json"]) := by
      simp [delete, joinCR, hc, hr, hstat, hatl]
    refine ⟨by simp [delete, joinCR, hc, hr, hstat], hfs, ?_, ?_⟩
    · rw [hfs]
      have := removeAllE_lookup_none (d.dir ++ [c]) (r ++ ".json") fs hwf
      simpa using this
    · intro m hm
      rw [hfs]
      have := removeAllE_sibling (d.dir ++ [c]) (r ++ ".json") m fs hm
      simpa using this
  · intro s h1 h2
    have hstat : statE fs (d.dir ++ [c, r]) = some (.file s) := by
      unfold statE
      rw [h1]
    have hfs : (delete fs d c r).fs = removeAllE fs (d.dir ++ [c, r ++ ".json"]) := by
      simp [delete, joinCR, hc, hr, hstat, hatl]
    refine ⟨by simp [delete, joinCR, hc, hr, hstat], ?_⟩
    rw [hfs]
    exact removeAllE_of_lookup_none _ _ h2
  · intro hstat
    refine ⟨⟨"unable to find file or directory named " ++ String.intercalate "/" [c, r] ++ "\n", ?_⟩, ?_⟩
    · simp [delete, joinCR, hc, hr, hstat]
    · simp [delete, joinCR, hc, hr, hstat]

/-- C5 witness: the fallback regular-file branch on the concrete store
removes exactly `john.json`. -/
theorem c5_witness :
    (delete fsUsers drv0 "users" "john").res = .ok () ∧
    (delete fsUsers drv0 "users" "john").fs
      = removeAllE fsUsers (drv0.dir ++ ["users", "john" ++ ".json"]) ∧
    lookupE (delete fsUsers drv0 "users" "john").fs (drv0.dir ++ ["users", "john" ++ ".json"]) = none ∧
    ∀ m, m ≠ "john" ++ ".json" →
      lookupE (delete fsUsers drv0 "users" "john").fs (drv0.dir ++ ["users", m])
        = lookupE fsUsers (drv0.dir ++ ["users", m]) :=
  (c5_delete_dispatch fsUsers drv0 "users" "john" (by decide) (by decide)
    (fun lp hlp => by
      have h2 : Entry.dir [("john.json", Entry.file "1\n")] = Entry.dir lp := Option.some.inj hlp
      rw [← Entry.dir.inj h2]
      simp [keysDistinct])).2.1 "1\n" rfl rfl

/-! ## C6 and C10: ReadAll semantics -/

/-- C6 counterexample: with `db/users.json` a regular file and no
`db/users` directory, `ReadAll "users"` returns an empty sequence and
no error — refuting the claim that a missing collection directory
yields `NotFoundError`. -/
theorem c6_counterexample :
    readAll fsFlat drv0 "users" = .ok [] ∧ lookupE fsFlat ["db", "users"] = none :=
  ⟨rfl, rfl⟩

/-- C6 (amended): when the collection directory exists and all its
entries are regular files, `ReadAll` returns one element per entry —
the file's raw content, unfiltered by extension — in the sorted
listing order `ioutil.ReadDir` produces; it returns `NotFoundError`
only when the `stat` probe fails on both the directory path and the
`".json"`-suffixed path; when the directory is missing but the
suffixed probe resolves, it returns an empty sequence with no error
(the `ReadDir` failure is discarded, main.go:139). -/
theorem c6_readAll_semantics (fs : Entry) (d : Driver) (c : String) (hc : c ≠ "") :
    (∀ l, lookupE fs (d.dir ++ [c]) = some (.dir l) → keysDistinct l → allFilesP l →
      readAll fs d c = .ok ((sortC l).map entryContentD)) ∧
    (statE fs (d.dir ++ [c]) = none →
      readAll fs d c = .error (.notFound "no such file or directory")) ∧
    (∀ e, lookupE fs (d.dir ++ [c]) = none →
      lookupE fs (d.dir ++ [c ++ ".json"]) = some e → readAll fs d c = .ok []) := by
  refine ⟨?_, ?_, ?_⟩
  · intro l hl hnd hall
    have hstat : statE fs (d.dir ++ [c]) = some (.dir l) := by
      unfold statE
      rw [hl]
    have hrd : readDirE fs (d.dir ++ [c]) = some (sortC l) := by
      unfold readDirE
      rw [hl]
    have hloop : readAllLoop fs (d.dir ++ [c]) (sortC l) = .ok ((sortC l).map entryContentD) := by
      apply readAllLoop_files
      intro p hp
      have hpl : p ∈ l := (mem_sortC p l).mp hp
      obtain ⟨s, hs⟩ := hall p hpl
      have hmem2 : (p.1, p.2) ∈ l := by
        rw [Prod.mk.eta]
        exact hpl
      have hfind : findC l p.1 = some p.2 := findC_of_mem_distinct l p.1 p.2 hnd hmem2
      have hlookup : lookupE fs ((d.dir ++ [c]) ++ [p.1]) = some p.2 := by
        rw [lookupE_append, hl]
        simp [lookupE, hfind]
      rw [hs] at hlookup
      simp only [List.append_assoc, List.cons_append, List.nil_append] at hlookup
      rw [show entryContentD p = s from by simp [entryContentD, hs]]
      simp [readFileE, hlookup]
    simp [readAll, hc, hstat, hrd, hloop]
  · intro hstat
    simp [readAll, hc, hstat]
  · intro e h1 h2
    have hstat : statE fs (d.dir ++ [c]) = some e := by
      unfold statE
      rw [h1]
      rw [show appendToLast (d.dir ++ [c]) ".json" = d.dir ++ [c ++ ".json"] from by
        rw [appendToLast_append]]
      exact h2
    have hrd : readDirE fs (d.dir ++ [c]) = none := by
      unfold readDirE
      rw [h1]
    simp [readAll, hc, hstat, hrd, readAllLoop]

/-- C6 witness: the amended statement evaluated on a one-file
collection. -/
theorem c6_witness :
    readAll fsUsers drv0 "users"
      = .ok ((sortC [("john.json", Entry.file "1\n")]).map entryContentD) :=
  (c6_readAll_semantics fsUsers drv0 "users" (by decide)).1 [("john.json", Entry.file "1\n")]
    rfl (by simp [keysDistinct]) (fun p hp => ⟨"1\n", by rw [List.mem_singleton.mp hp]⟩)

/-- C10: when the collection directory is missing but a regular file
`<root>/<collection>.json` exists, the `stat` probe falls back to the
suffixed path, the `ReadDir` error is discarded, and `ReadAll` returns
an empty sequence with no error rather than `NotFoundError`
(main.go:132-151, 191-196). -/
theorem c10_readAll_stat_fallback (fs : Entry) (d : Driver) (c s : String)
    (hc : c ≠ "")
    (h1 : lookupE fs (d.dir ++ [c]) = none)
    (h2 : lookupE fs (d.dir ++ [c ++ ".json"]) = some (.file s)) :
    readAll fs d c = .ok [] := by
  have hstat : statE fs (d.dir ++ [c]) = some (.file s) := by
    unfold statE
    rw [h1]
    rw [show appendToLast (d.dir ++ [c]) ".json" = d.dir ++ [c ++ ".json"] from by
      rw [appendToLast_append]]
    exact h2
  have hrd : readDirE fs (d.dir ++ [c]) = none := by
    unfold readDirE
    rw [h1]
  simp [readAll, hc, hstat, hrd, readAllLoop]

/-- C10 witness: the fallback evaluated on the concrete store with
only `db/users.json`. -/
theorem c10_witness : readAll fsFlat drv0 "users" = .ok [] :=
  c10_readAll_stat_fallback fsFlat drv0 "users" "zz" (by decide) rfl rfl

/-! ## C8: the mutex registry -/

theorem write_drv (fs : Entry) (d : Driver) (c r : String) (v : Json) :
    (write fs d c r v).drv = d ∨ (write fs d c r v).drv = (getOrCreateMutex d c).2 := by
  by_cases hc : c = ""
  · left; simp [write, hc]
  by_cases hr : r = ""
  · left; simp [write, hc, hr]
  cases hm : mkdirAll fs (d.dir ++ [c]) with
  | none => right; simp [write, hc, hr, hm]
  | some fs1 =>
    cases hw : writeFileE fs1 (d.dir ++ [c, r ++ ".json" ++ ".tmp"]) (serialize v ++ "\n") with
    | none => right; simp [write, hc, hr, hm, hw]
    | some fs2 =>
      cases hrn : renameE fs2 (d.dir ++ [c, r ++ ".json" ++ ".tmp"]) (d.dir ++ [c, r ++ ".json"]) with
      | none => right; simp [write, hc, hr, hm, hw, hrn]
      | some fs3 => right; simp [write, hc, hr, hm, hw, hrn]

theorem delete_drv (fs : Entry) (d : Driver) (c r : String) :
    (delete fs d c r).drv = (getOrCreateMutex d c).2 := by
  cases hstat : statE fs (d.dir ++ joinCR c r) with
  | none => simp [delete, hstat]
  | some e => cases e <;> simp [delete, hstat]

/-- C8: the mutex registry keeps at most one lock per collection name
and never drops an entry: a second `GetOrCreateMutex` on the same name
returns the same lock and leaves the registry unchanged, the registry
only ever grows by appending, and an existing entry survives any
`Write` or `Delete` (main.go:177-188). -/
theorem c8_mutex_registry (fs : Entry) (d : Driver) (c c2 r : String) (v : Json) (m : Nat) :
    getOrCreateMutex (getOrCreateMutex d c).2 c = getOrCreateMutex d c ∧
    (∃ t, ((getOrCreateMutex d c).2).mutexes = d.mutexes ++ t) ∧
    (lookupMu d.mutexes c2 = some m →
      lookupMu ((write fs d c r v).drv).mutexes c2 = some m) ∧
    (lookupMu d.mutexes c2 = some m →
      lookupMu ((delete fs d c r).drv).mutexes c2 = some m) := by
  refine ⟨?_, getOrCreateMutex_mutexes d c, ?_, ?_⟩
  · cases hm : lookupMu d.mutexes c with
    | some m0 => simp [getOrCreateMutex, hm]
    | none =>
      have h2 := lookupMu_append_new d.mutexes c d.nextId hm
      simp [getOrCreateMutex, hm, h2]
  · intro h
    rcases write_drv fs d c r v with hw | hw
    · rw [hw]; exact h
    · rw [hw]; exact getOrCreateMutex_keeps d c c2 m h
  · intro h
    rw [delete_drv]
    exact getOrCreateMutex_keeps d c c2 m h

/-- C8 witness: the registry behaviour on a driver that already holds
the lock for `users`. -/
theorem c8_witness :
    getOrCreateMutex (getOrCreateMutex drv1 "users").2 "users" = getOrCreateMutex drv1 "users" ∧
    (∃ t, ((getOrCreateMutex drv1 "users").2).mutexes = drv1.mutexes ++ t) ∧
    lookupMu ((write fsEmpty drv1 "users" "x" sampleVal).drv).mutexes "users" = some 0 ∧
    lookupMu ((delete fsEmpty drv1 "users" "x").drv).mutexes "users" = some 0 := by
  obtain ⟨h1, h2, h3, h4⟩ := c8_mutex_registry fsEmpty drv1 "users" "users" "x" sampleVal 0
  exact ⟨h1, h2, h3 rfl, h4 rfl⟩

/-! ## C9: Delete with empty resource names -/

/-- C9: `Delete(collection, "")` joins to the collection path itself,
so for an existing collection it succeeds and removes the whole
collection directory; `Delete("", "")` joins to the root directory and
removes the entire database tree (main.go:154-168). -/
theorem c9_delete_collection_and_root (fs : Entry) (d : Driver) (c : String) (hc : c ≠ "")
    (hwf : ∀ lp, lookupE fs d.dir = some (.dir lp) → keysDistinct lp) :
    (∀ l, lookupE fs (d.dir ++ [c]) = some (.dir l) →
      (delete fs d c "").res = .ok () ∧
      (delete fs d c "").fs = removeAllE fs (d.dir ++ [c]) ∧
      lookupE (delete fs d c "").fs (d.dir ++ [c]) = none) ∧
    (∀ P a l2, d.dir = P ++ [a] → lookupE fs d.dir = some (.dir l2) →
      (∀ lp, lookupE fs P = some (.dir lp) → keysDistinct lp) →
      (delete fs d "" "").res = .ok () ∧
      (delete fs d "" "").fs = removeAllE fs d.dir ∧
      lookupE (delete fs d "" "").fs d.dir = none) := by
  refine ⟨?_, ?_⟩
  · intro l hl
    have hstat : statE fs (d.dir ++ [c]) = some (.dir l) := by
      unfold statE
      rw [hl]
    have hfs : (delete fs d c "").fs = removeAllE fs (d.dir ++ [c]) := by
      simp [delete, joinCR, hc, hstat]
    refine ⟨by simp [delete, joinCR, hc, hstat], hfs, ?_⟩
    rw [hfs]
    exact removeAllE_lookup_none d.dir c fs hwf
  · intro P a l2 hdd hl2 hwfP
    have hstat : statE fs d.dir = some (.dir l2) := by
      unfold statE
      rw [hl2]
    have hfs : (delete fs d "" "").fs = removeAllE fs d.dir := by
      simp [delete, joinCR, hstat]
    refine ⟨by simp [delete, joinCR, hstat], hfs, ?_⟩
    rw [hfs, hdd]
    exact removeAllE_lookup_none P a fs hwfP

/-- C9 witness: deleting the `users` collection and the whole database
root on the concrete store. -/
theorem c9_witness :
    ((delete fsUsers drv0 "users" "").res = .ok () ∧
      (delete fsUsers drv0 "users" "").fs = removeAllE fsUsers (drv0.dir ++ ["users"]) ∧
      lookupE (delete fsUsers drv0 "users" "").fs (drv0.dir ++ ["users"]) = none) ∧
    ((delete fsUsers drv0 "" "").res = .ok () ∧
      (delete fsUsers drv0 "" "").fs = removeAllE fsUsers drv0.dir ∧
      lookupE (delete fsUsers drv0 "" "").fs drv0.dir = none) := by
  have hwf : ∀ lp, lookupE fsUsers drv0.dir = some (.dir lp) → keysDistinct lp := by
    intro lp hlp
    have h2 : Entry.dir [("users", Entry.dir [("john.json", Entry.file "1\n")])] = Entry.dir lp :=
      Option.some.inj hlp
    rw [← Entry.dir.inj h2]
    simp [keysDistinct]
  obtain ⟨h1, h2⟩ := c9_delete_collection_and_root fsUsers drv0 "users" (by decide) hwf
  refine ⟨h1 [("john.json", Entry.file "1\n")] rfl, ?_⟩
  refine h2 [] "db" [("users", Entry.dir [("john.json", Entry.file "1\n")])] rfl rfl ?_
  intro lp hlp
  have h3 : Entry.dir [("db", Entry.dir [("users", Entry.dir [("john.json", Entry.file "1\n")])])]
      = Entry.dir lp := Option.some.inj hlp
  rw [← Entry.dir.inj h3]
  simp [keysDistinct]

end FsDb
